import Mathlib

/-!
# kitti2beam: decoding, angular filtering and re-encoding of KITTI point clouds

A shallow embedding of `src/kitti2beam.cpp`.

* Floats are values of an arbitrary type `F`; the decoder and the encoders only move them
  around.  The arithmetic that feeds the angular filter (`*`, `+`, `sqrt`, `atan2`, the
  conversion to degrees) is taken as a record of operations `FloatOps F`.
* The elevation angle that reaches the comparisons is an `Option ℚ`: `none` is NaN, on
  which every comparison of the source is false.  Literals such as `-15.1` are the exact
  decimal numbers; binary rounding of the literals is not modelled.
* Every loop of the source counts with a `uint32_t`; the counter and every index
  computed from it are reduced modulo `2 ^ 32`.  Such a loop need not terminate, so the
  loops take fuel and report `Run.outOfFuel` when it is used up.
* `std::vector::operator[]` outside the vector is undefined behaviour; the embedding
  stops there with `Run.outOfBounds idx size`.
* Text written to `std::cout` / `std::cerr` is diagnostic only and is not modelled, and
  neither is the parameter `bDebugPrint`, which only selects such text.
* A file is the list of the floats it holds; bytes and byte order are not modelled.
* A `boost::filesystem::path` is the list of its elements, the source tree is a finite
  tree, and the calls into `boost::filesystem` are taken not to throw.
-/

namespace Kitti2Beam

/-- The record `PointT` of the source: four floats `x`, `y`, `z`, `i`. -/
structure PointT (F : Type) where
  x : F
  y : F
  z : F
  i : F
deriving DecidableEq, Repr

/-- How a loop of the program ends. -/
inductive Run (α : Type) where
  | done (a : α)
  | outOfBounds (idx size : Nat)
  | outOfFuel
deriving DecidableEq, Repr

/-- Sequencing of runs: the first abnormal end is the end of the whole run. -/
def Run.bind {α β : Type} (r : Run α) (f : α → Run β) : Run β :=
  match r with
  | .done a => f a
  | .outOfBounds idx size => .outOfBounds idx size
  | .outOfFuel => .outOfFuel

/-- Arithmetic on `uint32_t`. -/
def u32 (n : Nat) : Nat := n % 2 ^ 32

/-- The expression `v[idx]` on a `std::vector`. -/
def fetch {α : Type} (v : List α) (idx : Nat) : Run α :=
  match v[idx]? with
  | some a => .done a
  | none => .outOfBounds idx v.length

/-- The floating-point operations used by the angular filter. -/
structure FloatOps (F : Type) where
  /-- Float multiplication. -/
  mul : F → F → F
  /-- Float addition. -/
  add : F → F → F
  /-- The call `sqrt(..)`, stored back into a `float`. -/
  sqrt : F → F
  /-- The call `atan2(z, dist_xy)`. -/
  atan2 : F → F → F
  /-- The scaling `.. * 180 / M_PI`, stored into the `float anglez_rad`. -/
  toDeg : F → F
  /-- The number a float stands for; `none` for NaN. -/
  val : F → Option ℚ

/-- The comparison `a < c` of the source; false on NaN. -/
def flt (a : Option ℚ) (c : ℚ) : Bool :=
  match a with
  | some q => decide (q < c)
  | none => false

/-- The comparison `a > c` of the source; false on NaN. -/
def fgt (a : Option ℚ) (c : ℚ) : Bool :=
  match a with
  | some q => decide (q > c)
  | none => false

/-- The condition of the `if` at line 86 of `kitti2beam.cpp`, on the value of `anglez_rad`:
when it holds the loop executes `continue` and the point is not stored. -/
def inExclusionBand (a : Option ℚ) : Bool :=
  (flt a (-15.1)) || (flt a (-11.5) && fgt a (-12.5)) || (flt a (-9.5) && fgt a (-10.5))
    || (flt a (-7.5) && fgt a (-8.5)) || (flt a (-5.2) && fgt a (-6.5))
    || (flt a (-3.2) && fgt a (-4.8)) || (flt a (-1.2) && fgt a (-2.8))
    || (flt a (-0.2) && fgt a (-0.8)) || (fgt a 0.1 && flt a 0.8)
    || (fgt a 1.2 && flt a 1.8)

/-- Lines 84 and 85: `dist_xy = sqrt(x*x + y*y)` and
`anglez_rad = atan2(z, dist_xy) * 180 / M_PI`, as the number it stands for. -/
def anglez {F : Type} (ops : FloatOps F) (point : PointT F) : Option ℚ :=
  let dist_xy := ops.sqrt (ops.add (ops.mul point.x point.x) (ops.mul point.y point.y))
  ops.val (ops.toDeg (ops.atan2 point.z dist_xy))

/-- The filter decision of the loop body for one point: `true` when the condition at
line 86 holds and the point is skipped. -/
def discards {F : Type} (ops : FloatOps F) (point : PointT F) : Bool :=
  inExclusionBand (anglez ops point)

/-- State of the loop of `readKittiFile`: the caller's `pointCloudVector`, and, as a
trace, every value given to the local `point` by lines 79 to 82, in order. -/
structure LoopState (F : Type) where
  pointCloudVector : List (PointT F)
  records : List (PointT F)
deriving DecidableEq, Repr

/-- The loop at lines 77 to 96 of `readKittiFile`, started with counter `i`:
`for (uint32_t i = ..; i < buffer.size(); i += 5)`. -/
def readKittiLoop {F : Type} (ops : FloatOps F) (buffer : List F) :
    Nat → Nat → LoopState F → Run (LoopState F)
  | 0, _, _ => .outOfFuel
  | fuel + 1, i, st =>
    if i < buffer.length then
      (fetch buffer i).bind fun x =>
      (fetch buffer (u32 (i + 1))).bind fun y =>
      (fetch buffer (u32 (i + 2))).bind fun z =>
      (fetch buffer (u32 (i + 3))).bind fun w =>
        let point : PointT F := ⟨x, y, z, w⟩
        if discards ops point then
          readKittiLoop ops buffer fuel (u32 (i + 5))
            ⟨st.pointCloudVector, st.records ++ [point]⟩
        else
          readKittiLoop ops buffer fuel (u32 (i + 5))
            ⟨st.pointCloudVector ++ [point], st.records ++ [point]⟩
    else
      .done st

/-- The decoder in the words of the specification: steps of 5 from index 0, and a point
from the first four floats of a step whenever at least four floats remain. -/
def decodeSpec {F : Type} : List F → List (PointT F)
  | x :: y :: z :: w :: _ :: rest => ⟨x, y, z, w⟩ :: decodeSpec rest
  | [x, y, z, w] => [⟨x, y, z, w⟩]
  | _ => []

/-- The predicate `shouldKeep` of the specification: a point is kept when its elevation
angle lies in none of the ten bands. -/
def shouldKeep {F : Type} (ops : FloatOps F) (p : PointT F) : Bool :=
  !(discards ops p)

/-- The stream written by the binary encoder in the words of the specification: per point,
in order, `x`, `y`, `z`, then `i`, with no header. -/
def encodeSpec {F : Type} (ps : List (PointT F)) : List F :=
  ps.flatMap fun p => [p.x, p.y, p.z, p.i]

/-- Reading a float stream back in groups of four with no discarded field, in the words of
the specification. -/
def decode4Spec {F : Type} : List F → List (PointT F)
  | x :: y :: z :: w :: rest => ⟨x, y, z, w⟩ :: decode4Spec rest
  | _ => []

/-- The loop at lines 127 to 133 of `WriteKittiFile`; `out` is the content of the output
file, to which every `write` appends.  The first `write` copies three floats starting at
the field `x`, which are `x`, `y`, `z`; the second copies the field `i`. -/
def writeKittiLoop {F : Type} (pointCloudVector : List (PointT F)) :
    Nat → Nat → List F → Run (List F)
  | 0, _, _ => .outOfFuel
  | fuel + 1, i, out =>
    if i < pointCloudVector.length then
      (fetch pointCloudVector i).bind fun p =>
      (fetch pointCloudVector i).bind fun q =>
        writeKittiLoop pointCloudVector fuel (u32 (i + 1)) ((out ++ [p.x, p.y, p.z]) ++ [q.i])
    else
      .done out

/-- The function `WriteKittiFile`.  `outFile` is `none` when the output stream cannot be
opened with `binary | out | app`, and otherwise the floats the file holds at that moment
(none for a file the open has just created).  The result is the returned `int` and the
file afterwards. -/
def WriteKittiFile {F : Type} (fuel : Nat) (outFile : Option (List F))
    (pointCloudVector : List (PointT F)) : Run (Int × Option (List F)) :=
  match outFile with
  | none => .done (0, none)
  | some content =>
    (writeKittiLoop pointCloudVector fuel 0 content).bind fun out =>
      .done (1, some out)

/-- The ten header lines written by `writePcdFile` at lines 153 to 162, for a vector of
`size` points; each one ends with `std::endl`. -/
def pcdHeader (size : Nat) : List String :=
  ["# .PCD v.7 - Point Cloud Data file format",
   "VERSION .7",
   "FIELDS x y z intensity",
   "SIZE 4 4 4 4",
   "TYPE F F F F",
   "COUNT 1 1 1 1",
   "WIDTH " ++ toString size,
   "HEIGHT 1",
   "POINTS " ++ toString size,
   "DATA ASCII"]

/-- The line written at line 167 for one point; `fmt` prints a float at the precision set
by `std::setprecision(outputPrecision)`. -/
def pcdDataLine {F : Type} (fmt : F → String) (x y z i : F) : String :=
  fmt x ++ " " ++ fmt y ++ " " ++ fmt z ++ " " ++ fmt i

/-- The loop at lines 165 to 168 of `writePcdFile`; `out` is the list of lines written
so far. -/
def writePcdLoop {F : Type} (fmt : F → String) (pointCloudVector : List (PointT F)) :
    Nat → Nat → List String → Run (List String)
  | 0, _, _ => .outOfFuel
  | fuel + 1, i, out =>
    if i < pointCloudVector.length then
      (fetch pointCloudVector i).bind fun p1 =>
      (fetch pointCloudVector i).bind fun p2 =>
      (fetch pointCloudVector i).bind fun p3 =>
      (fetch pointCloudVector i).bind fun p4 =>
        writePcdLoop fmt pointCloudVector fuel (u32 (i + 1))
          (out ++ [pcdDataLine fmt p1.x p2.y p3.z p4.i])
    else
      .done out

/-- The function `writePcdFile`.  `opened` tells whether the output stream could be opened;
the stream is opened without `app`, so the file starts empty.  The result is the returned
`int` and the lines of the file afterwards. -/
def writePcdFile {F : Type} (fmt : F → String) (fuel : Nat) (opened : Bool)
    (pointCloudVector : List (PointT F)) : Run (Int × Option (List String)) :=
  if opened then
    (writePcdLoop fmt pointCloudVector fuel 0 (pcdHeader pointCloudVector.length)).bind
      fun out => .done (1, some out)
  else
    .done (0, none)

/-- A `boost::filesystem::path`, as the list of its elements. -/
abbrev Path := List String

/-- The text of a path, `path::string()`. -/
def Path.string (p : Path) : String := "/".intercalate p

/-- The last element of a path, `path::filename()`. -/
def Path.filename (p : Path) : String := p.getLastD ""

/-- The path without its last element, `path::parent_path()`. -/
def Path.parent_path (p : Path) : Path := p.dropLast

/-- The call `p.append(name.begin(), name.end())`: nothing is added for an empty name. -/
def Path.append (p : Path) (name : String) : Path :=
  if name = "" then p else p ++ [name]

mutual
/-- What `resucurePath` finds at a source path.  A regular file carries what opening it for
reading gives: `none` when it cannot be opened, otherwise its floats. -/
inductive Node (F : Type) where
  | regular (content : Option (List F))
  | directory (entries : Entries F)
  | other
/-- The entries of a directory, in the order of `directory_iterator`. -/
inductive Entries (F : Type) where
  | nil
  | cons (name : String) (node : Node F) (rest : Entries F)
end

/-- What the tree walk does to the outside world. `convert src dest` stands for the pair
of calls `readKittiFile(src, pointCloudVector, true)` and
`WriteKittiFile(dest, pointCloudVector, false)` on a fresh vector. -/
inductive Event where
  | create_directory (p : Path)
  | create_directories (p : Path)
  | convert (src dest : String)
deriving DecidableEq, Repr

/-- The call `exists(p)` during the walk: the path was there initially or has been created. -/
def pathExists (destExists : Path → Bool) (log : List Event) (p : Path) : Bool :=
  destExists p || decide (Event.create_directory p ∈ log)

mutual
/-- The function `resucurePath` of `kitti2beam.cpp`, on the node found at `src_path`; `log`
collects the events so far.  `stem` is `path::stem()` on a file name. -/
def resucurePath {F : Type} (stem : String → String) (destExists : Path → Bool) :
    Path → Path → Node F → List Event → List Event
  | src_path, dest_path, .directory entries, log =>
    resucureEntries stem destExists src_path dest_path entries log
  | src_path, dest_path, .regular _, log =>
    let src_path_string := src_path.string
    let src_filename_string := src_path.filename
    let src_parent_dir_string := src_path.parent_path.filename
    let dest_path_string := dest_path.parent_path.string ++ "/" ++ src_filename_string
    if src_parent_dir_string = "lidar_roof" then
      log ++ [.convert src_path_string dest_path_string]
    else
      log
  | _, _, .other, log => log
/-- The body of the `for` loop of `resucurePath` over the entries of `src_path`. -/
def resucureEntries {F : Type} (stem : String → String) (destExists : Path → Bool) :
    Path → Path → Entries F → List Event → List Event
  | _, _, .nil, log => log
  | src_path, dest_path, .cons name node rest, log =>
    match node with
    | .directory sub =>
      let child_dest_path := dest_path.append name
      let log1 :=
        if pathExists destExists log child_dest_path then log
        else log ++ [.create_directory child_dest_path]
      resucureEntries stem destExists src_path dest_path rest
        (resucurePath stem destExists (src_path ++ [name]) child_dest_path (.directory sub) log1)
    | node =>
      let child_dest_path := dest_path.append (stem name)
      resucureEntries stem destExists src_path dest_path rest
        (resucurePath stem destExists (src_path ++ [name]) child_dest_path node log)
end

/-- An exact interpretation of the float operations on rational numbers, used to run
the definitions on examples.  An angle in radians is kept as a fraction of π.  `sqrt` is exact
on 0 and 1 and `atan2` on the axes and the diagonals, which is all the examples use. -/
def exampleOps : FloatOps ℚ where
  mul := fun a b => a * b
  add := fun a b => a + b
  sqrt := fun a => a
  atan2 := fun z d =>
    if d = 0 then (if 0 < z then 1 / 2 else if z < 0 then -1 / 2 else 0) else z / d / 4
  toDeg := fun a => a * 180
  val := some

/-- The part of a file name before its last dot, for running the walk on examples. -/
def exampleStem (name : String) : String :=
  if '.' ∈ name.data then
    String.mk ((name.data.reverse.dropWhile (fun c => c != '.')).drop 1).reverse
  else name

mutual
/-- The regular files found below a directory entry called `name`, each given by the
directories that lead to it and its file name, in the order of the walk. -/
def Node.filesAs {F : Type} (name : String) : Node F → List (List String × String)
  | .regular _ => [([], name)]
  | .directory entries => entries.files.map fun f => (name :: f.1, f.2)
  | .other => []
/-- The regular files found below the entries of a directory, in the order of the walk. -/
def Entries.files {F : Type} : Entries F → List (List String × String)
  | .nil => []
  | .cons name node rest => node.filesAs name ++ rest.files
end

mutual
/-- Names as a file system gives them: a directory name is not empty, and a regular file
name has a stem that is not empty. -/
def Node.wellNamedAs {F : Type} (stem : String → String) (name : String) : Node F → Bool
  | .regular _ => stem name != ""
  | .directory entries => name != "" && entries.wellNamed stem
  | .other => true
/-- All the names below the entries of a directory are as a file system gives them. -/
def Entries.wellNamed {F : Type} (stem : String → String) : Entries F → Bool
  | .nil => true
  | .cons name node rest => node.wellNamedAs stem name && rest.wellNamed stem
end

/-- The source file is directly inside a directory called `lidar_roof`. -/
def underLidarRoof (src : Path) (f : List String × String) : Bool :=
  decide (Path.filename (src ++ f.1) = "lidar_roof")

/-- The conversion of the file `f` found below `src`: it is read from its own path and
written to the mirrored directory under `dest`, joined with the file name as it is. -/
def conversionOf (src dest : Path) (f : List String × String) : Event :=
  .convert (Path.string (src ++ f.1 ++ [f.2])) (Path.string (dest ++ f.1) ++ "/" ++ f.2)

/-- Whether an event is a conversion. -/
def Event.isConvert : Event → Bool
  | .convert _ _ => true
  | _ => false

/-- A source tree with one scan below a directory called `lidar_roof` and one below a
directory called `camera`, for running the walk on an example. -/
def exampleEntries : Entries ℚ :=
  .cons "lidar_roof" (.directory (.cons "000001.bin" (.regular (some [])) .nil))
    (.cons "camera" (.directory (.cons "000001.jpg" (.regular (some [])) .nil)) .nil)

theorem u32_of_lt {n : Nat} (h : n < 2 ^ 32) : u32 n = n := Nat.mod_eq_of_lt h

theorem fetch_drop {α : Type} (v : List α) (i j : Nat) (a : α)
    (h : (v.drop i)[j]? = some a) : fetch v (i + j) = .done a := by
  unfold fetch
  rw [List.getElem?_drop] at h
  rw [h]

/-- Invariant of the loop on a buffer whose remaining part is a whole number of records. -/
theorem readKittiLoop_aligned {F : Type} (ops : FloatOps F) (buffer : List F) :
    ∀ (m fuel i : Nat) (st : LoopState F),
      (buffer.drop i).length = 5 * m → i + 5 * m < 2 ^ 32 → m < fuel →
      readKittiLoop ops buffer fuel i st =
        .done ⟨st.pointCloudVector ++ (decodeSpec (buffer.drop i)).filter (shouldKeep ops),
               st.records ++ decodeSpec (buffer.drop i)⟩ := by
  intro m
  induction m with
  | zero =>
    intro fuel i st hlen _ hf
    obtain ⟨fuel, rfl⟩ : ∃ f, fuel = f + 1 := ⟨fuel - 1, by omega⟩
    have hnil : buffer.drop i = [] := List.length_eq_zero.mp (by simpa using hlen)
    have hle : ¬ i < buffer.length := by
      have := List.drop_eq_nil_iff.mp hnil
      omega
    simp [readKittiLoop, hle, hnil, decodeSpec]
  | succ m ih =>
    intro fuel i st hlen hb hf
    obtain ⟨fuel, rfl⟩ : ∃ f, fuel = f + 1 := ⟨fuel - 1, by omega⟩
    have hlt : i < buffer.length := by
      rw [List.length_drop] at hlen
      omega
    match hd : buffer.drop i, hlen with
    | x :: y :: z :: w :: v :: rest, hlen =>
      have h0 : fetch buffer i = .done x := by
        have := fetch_drop buffer i 0 x (by rw [hd]; simp)
        simpa using this
      have h1 : fetch buffer (u32 (i + 1)) = .done y := by
        rw [u32_of_lt (by omega)]
        exact fetch_drop buffer i 1 y (by rw [hd]; simp)
      have h2 : fetch buffer (u32 (i + 2)) = .done z := by
        rw [u32_of_lt (by omega)]
        exact fetch_drop buffer i 2 z (by rw [hd]; simp)
      have h3 : fetch buffer (u32 (i + 3)) = .done w := by
        rw [u32_of_lt (by omega)]
        exact fetch_drop buffer i 3 w (by rw [hd]; simp)
      have hrest : buffer.drop (i + 5) = rest := by
        rw [← List.drop_drop, hd]
        rfl
      have hlen2 : (buffer.drop (i + 5)).length = 5 * m := by
        rw [hrest]
        simp at hlen
        omega
      have h5 : u32 (i + 5) = i + 5 := u32_of_lt (by omega)
      rw [readKittiLoop, if_pos hlt, h0, h1, h2, h3]
      simp only [Run.bind, h5]
      by_cases hdis : discards ops ⟨x, y, z, w⟩ = true
      · rw [if_pos hdis, ih fuel (i + 5) _ hlen2 (by omega) (by omega), hrest]
        simp [decodeSpec, shouldKeep, hdis]
      · rw [if_neg hdis, ih fuel (i + 5) _ hlen2 (by omega) (by omega), hrest]
        simp [decodeSpec, shouldKeep, hdis]


theorem decodeSpec_length {F : Type} :
    ∀ (N : Nat) (suf : List F), suf.length = 5 * N → (decodeSpec suf).length = N := by
  intro N
  induction N with
  | zero =>
    intro suf h
    have : suf = [] := List.length_eq_zero.mp (by simpa using h)
    subst this
    rfl
  | succ N ih =>
    intro suf h
    match suf, h with
    | x :: y :: z :: w :: v :: rest, h =>
      have hr : rest.length = 5 * N := by simp at h; omega
      simp [decodeSpec, ih rest hr]

theorem decodeSpec_getElem {F : Type} :
    ∀ (N : Nat) (suf : List F) (k : Nat), suf.length = 5 * N → k < N →
      ∃ p : PointT F, (decodeSpec suf)[k]? = some p ∧ suf[5 * k]? = some p.x ∧
        suf[5 * k + 1]? = some p.y ∧ suf[5 * k + 2]? = some p.z ∧
        suf[5 * k + 3]? = some p.i := by
  intro N
  induction N with
  | zero => intro suf k _ hk; omega
  | succ N ih =>
    intro suf k h hk
    match suf, h with
    | x :: y :: z :: w :: v :: rest, h =>
      have hr : rest.length = 5 * N := by simp at h; omega
      cases k with
      | zero => exact ⟨⟨x, y, z, w⟩, by simp [decodeSpec]⟩
      | succ k =>
        obtain ⟨p, h0, h1, h2, h3, h4⟩ := ih rest k hr (by omega)
        refine ⟨p, ?_, ?_, ?_, ?_, ?_⟩
        · simpa [decodeSpec] using h0
        · rw [show 5 * (k + 1) = 5 * k + 1 + 1 + 1 + 1 + 1 by ring]
          simpa using h1
        · rw [show 5 * (k + 1) + 1 = 5 * k + 1 + 1 + 1 + 1 + 1 + 1 by ring]
          simpa using h2
        · rw [show 5 * (k + 1) + 2 = 5 * k + 2 + 1 + 1 + 1 + 1 + 1 by ring]
          simpa using h3
        · rw [show 5 * (k + 1) + 3 = 5 * k + 3 + 1 + 1 + 1 + 1 + 1 by ring]
          simpa using h4

theorem decodeSpec_congr {F : Type} (N : Nat) (b b' : List F) (h : b.length = 5 * N)
    (h' : b'.length = 5 * N) (hsame : ∀ j, j % 5 ≠ 4 → b'[j]? = b[j]?) :
    decodeSpec b' = decodeSpec b := by
  apply List.ext_getElem?
  intro k
  by_cases hk : k < N
  · obtain ⟨p, h0, h1, h2, h3, h4⟩ := decodeSpec_getElem N b k h hk
    obtain ⟨q, g0, g1, g2, g3, g4⟩ := decodeSpec_getElem N b' k h' hk
    rw [hsame _ (by omega)] at g1 g2 g3 g4
    rw [h1] at g1
    rw [h2] at g2
    rw [h3] at g3
    rw [h4] at g4
    have : q = p := by
      cases p; cases q; simp_all
    rw [h0, g0, this]
  · have l1 := decodeSpec_length N b h
    have l2 := decodeSpec_length N b' h'
    rw [List.getElem?_eq_none (by omega), List.getElem?_eq_none (by omega)]

/-- C1: on a buffer of exactly `5 * N` floats, with `5 * N` in the range of the `uint32_t`
counter and more than `N` units of fuel, the loop of `readKittiFile` ends normally after
extracting exactly `N` records; the `k`-th record has `x`, `y`, `z`, `i` equal to the
floats at indices `5k`, `5k+1`, `5k+2`, `5k+3`; and the extracted records are the same for
any other buffer of that length that differs only at indices `5k+4`. -/
theorem readKittiFile_decode_stride {F : Type} (ops : FloatOps F) (N fuel : Nat)
    (buffer : List F) (v : List (PointT F))
    (hlen : buffer.length = 5 * N) (hsize : 5 * N < 2 ^ 32) (hfuel : N < fuel) :
    ∃ st : LoopState F, readKittiLoop ops buffer fuel 0 ⟨v, []⟩ = .done st ∧
      st.records.length = N ∧
      (∀ k, k < N → ∃ p : PointT F, st.records[k]? = some p ∧
        buffer[5 * k]? = some p.x ∧ buffer[5 * k + 1]? = some p.y ∧
        buffer[5 * k + 2]? = some p.z ∧ buffer[5 * k + 3]? = some p.i) ∧
      (∀ buffer2 : List F, buffer2.length = 5 * N →
        (∀ j, j % 5 ≠ 4 → buffer2[j]? = buffer[j]?) →
        ∃ st2 : LoopState F, readKittiLoop ops buffer2 fuel 0 ⟨v, []⟩ = .done st2 ∧
          st2.records = st.records) := by
  have run := readKittiLoop_aligned ops buffer N fuel 0 ⟨v, []⟩ (by simpa using hlen)
    (by omega) hfuel
  simp only [List.drop_zero, List.nil_append] at run
  refine ⟨_, run, decodeSpec_length N buffer hlen, ?_, ?_⟩
  · intro k hk
    exact decodeSpec_getElem N buffer k hlen hk
  · intro buffer2 hlen2 hsame
    have run2 := readKittiLoop_aligned ops buffer2 N fuel 0 ⟨v, []⟩ (by simpa using hlen2)
      (by omega) hfuel
    simp only [List.drop_zero, List.nil_append] at run2
    exact ⟨_, run2, decodeSpec_congr N buffer buffer2 hlen hlen2 hsame⟩


theorem fetch_drop_none {α : Type} (v : List α) (i j : Nat)
    (h : (v.drop i).length = j) (hi : i ≤ v.length) :
    fetch v (i + j) = .outOfBounds v.length v.length := by
  rw [List.length_drop] at h
  have hl : v.length = i + j := by omega
  unfold fetch
  rw [List.getElem?_eq_none (by omega), hl]

/-- On a buffer whose remaining part is a whole number of records followed by one, two or
three floats, the loop enters one more iteration and indexes the buffer at its size. -/
theorem readKittiLoop_truncated {F : Type} (ops : FloatOps F) (buffer : List F) (r : Nat)
    (hr1 : 1 ≤ r) (hr3 : r ≤ 3) :
    ∀ (m fuel i : Nat) (st : LoopState F),
      (buffer.drop i).length = 5 * m + r → i + 5 * m + 5 < 2 ^ 32 → m < fuel →
      readKittiLoop ops buffer fuel i st = .outOfBounds buffer.length buffer.length := by
  intro m
  induction m with
  | zero =>
    intro fuel i st hlen hb hf
    obtain ⟨fuel, rfl⟩ : ∃ f, fuel = f + 1 := ⟨fuel - 1, by omega⟩
    have hlt : i < buffer.length := by
      rw [List.length_drop] at hlen
      omega
    rw [readKittiLoop, if_pos hlt]
    match hd : buffer.drop i, hlen with
    | [a], hlen =>
      have h0 : fetch buffer i = .done a := by
        simpa using fetch_drop buffer i 0 a (by rw [hd]; simp)
      have h1 : fetch buffer (u32 (i + 1)) = .outOfBounds buffer.length buffer.length := by
        rw [u32_of_lt (by omega)]
        exact fetch_drop_none buffer i 1 (by rw [hd]; simp) (by omega)
      simp [h0, h1, Run.bind]
    | [a, b], hlen =>
      have h0 : fetch buffer i = .done a := by
        simpa using fetch_drop buffer i 0 a (by rw [hd]; simp)
      have h1 : fetch buffer (u32 (i + 1)) = .done b := by
        rw [u32_of_lt (by omega)]
        exact fetch_drop buffer i 1 b (by rw [hd]; simp)
      have h2 : fetch buffer (u32 (i + 2)) = .outOfBounds buffer.length buffer.length := by
        rw [u32_of_lt (by omega)]
        exact fetch_drop_none buffer i 2 (by rw [hd]; simp) (by omega)
      simp [h0, h1, h2, Run.bind]
    | [a, b, c], hlen =>
      have h0 : fetch buffer i = .done a := by
        simpa using fetch_drop buffer i 0 a (by rw [hd]; simp)
      have h1 : fetch buffer (u32 (i + 1)) = .done b := by
        rw [u32_of_lt (by omega)]
        exact fetch_drop buffer i 1 b (by rw [hd]; simp)
      have h2 : fetch buffer (u32 (i + 2)) = .done c := by
        rw [u32_of_lt (by omega)]
        exact fetch_drop buffer i 2 c (by rw [hd]; simp)
      have h3 : fetch buffer (u32 (i + 3)) = .outOfBounds buffer.length buffer.length := by
        rw [u32_of_lt (by omega)]
        exact fetch_drop_none buffer i 3 (by rw [hd]; simp) (by omega)
      simp [h0, h1, h2, h3, Run.bind]
    | [], hlen => simp at hlen; omega
    | _ :: _ :: _ :: _ :: _, hlen => simp at hlen; omega
  | succ m ih =>
    intro fuel i st hlen hb hf
    obtain ⟨fuel, rfl⟩ : ∃ f, fuel = f + 1 := ⟨fuel - 1, by omega⟩
    have hlt : i < buffer.length := by
      rw [List.length_drop] at hlen
      omega
    match hd : buffer.drop i, hlen with
    | x :: y :: z :: w :: v :: rest, hlen =>
      have h0 : fetch buffer i = .done x := by
        simpa using fetch_drop buffer i 0 x (by rw [hd]; simp)
      have h1 : fetch buffer (u32 (i + 1)) = .done y := by
        rw [u32_of_lt (by omega)]
        exact fetch_drop buffer i 1 y (by rw [hd]; simp)
      have h2 : fetch buffer (u32 (i + 2)) = .done z := by
        rw [u32_of_lt (by omega)]
        exact fetch_drop buffer i 2 z (by rw [hd]; simp)
      have h3 : fetch buffer (u32 (i + 3)) = .done w := by
        rw [u32_of_lt (by omega)]
        exact fetch_drop buffer i 3 w (by rw [hd]; simp)
      have hrest : buffer.drop (i + 5) = rest := by
        rw [← List.drop_drop, hd]
        rfl
      have hlen2 : (buffer.drop (i + 5)).length = 5 * m + r := by
        rw [hrest]
        simp at hlen
        omega
      have h5 : u32 (i + 5) = i + 5 := u32_of_lt (by omega)
      rw [readKittiLoop, if_pos hlt, h0, h1, h2, h3]
      simp only [Run.bind, h5]
      by_cases hdis : discards ops ⟨x, y, z, w⟩ = true
      · rw [if_pos hdis, ih fuel (i + 5) _ hlen2 (by omega) (by omega)]
      · rw [if_neg hdis, ih fuel (i + 5) _ hlen2 (by omega) (by omega)]
    | [], hlen => simp at hlen; omega
    | [_], hlen => simp at hlen; omega
    | [_, _], hlen => simp at hlen; omega
    | [_, _, _], hlen => simp at hlen; omega
    | [_, _, _, _], hlen => simp at hlen; omega

/-- C2 (what the code does): on a buffer of `5 * N + r` floats with `1 ≤ r ≤ 3`, within the
range of the `uint32_t` counter and with more than `N` units of fuel, the loop of
`readKittiFile` does not stop after `N` records: it starts one more record and evaluates
`buffer[idx]` with `idx` equal to the size of the buffer. -/
theorem readKittiFile_truncated_tail_out_of_bounds {F : Type} (ops : FloatOps F)
    (N r fuel : Nat) (buffer : List F) (v : List (PointT F))
    (hlen : buffer.length = 5 * N + r) (hr1 : 1 ≤ r) (hr3 : r ≤ 3)
    (hsize : 5 * N + 5 < 2 ^ 32) (hfuel : N < fuel) :
    readKittiLoop ops buffer fuel 0 ⟨v, []⟩ = .outOfBounds (5 * N + r) (5 * N + r) := by
  have h := readKittiLoop_truncated ops buffer r hr1 hr3 N fuel 0 ⟨v, []⟩
    (by simpa using hlen) (by omega) hfuel
  rw [h, hlen]

theorem flt_some (a c : ℚ) : flt (some a) c = true ↔ a < c := by
  simp [flt]

theorem fgt_some (a c : ℚ) : fgt (some a) c = true ↔ c < a := by
  simp [fgt]

theorem inExclusionBand_some (a : ℚ) : inExclusionBand (some a) = true ↔
    (a < -15.1 ∨ (-12.5 < a ∧ a < -11.5) ∨ (-10.5 < a ∧ a < -9.5) ∨
      (-8.5 < a ∧ a < -7.5) ∨ (-6.5 < a ∧ a < -5.2) ∨ (-4.8 < a ∧ a < -3.2) ∨
      (-2.8 < a ∧ a < -1.2) ∨ (-0.8 < a ∧ a < -0.2) ∨ (0.1 < a ∧ a < 0.8) ∨
      (1.2 < a ∧ a < 1.8)) := by
  unfold inExclusionBand
  simp only [Bool.or_eq_true, Bool.and_eq_true, flt_some, fgt_some, or_assoc]
  have swap : ∀ p q : Prop, (p ∧ q) ↔ (q ∧ p) := fun p q => and_comm
  rw [swap (a < -11.5), swap (a < -9.5), swap (a < -7.5), swap (a < -5.2), swap (a < -3.2),
    swap (a < -1.2), swap (a < -0.2)]

/-- C3: the condition at line 86 holds for an angle `a` exactly when `a` lies below
`-15.1` or strictly inside one of the nine bounded bands; every band endpoint is kept,
and `-15.10001` is discarded. -/
theorem inExclusionBand_iff_strict_bands :
    (∀ a : ℚ, inExclusionBand (some a) = true ↔
      (a < -15.1 ∨ (-12.5 < a ∧ a < -11.5) ∨ (-10.5 < a ∧ a < -9.5) ∨
        (-8.5 < a ∧ a < -7.5) ∨ (-6.5 < a ∧ a < -5.2) ∨ (-4.8 < a ∧ a < -3.2) ∨
        (-2.8 < a ∧ a < -1.2) ∨ (-0.8 < a ∧ a < -0.2) ∨ (0.1 < a ∧ a < 0.8) ∨
        (1.2 < a ∧ a < 1.8))) ∧
    List.all [-15.1, -12.5, -11.5, -10.5, -9.5, -8.5, -7.5, -6.5, -5.2, -4.8, -3.2, -2.8,
        -1.2, -0.8, -0.2, 0.1, 0.8, 1.2, 1.8]
      (fun e : ℚ => !(inExclusionBand (some e))) = true ∧
    inExclusionBand (some (-15.10001)) = true := by
  refine ⟨inExclusionBand_some, ?_, ?_⟩
  · simp only [List.all_cons, List.all_nil, Bool.and_true, Bool.and_eq_true,
      Bool.not_eq_true', ← Bool.not_eq_true, inExclusionBand_some]
    norm_num
  · rw [inExclusionBand_some]
    norm_num

/-- C4: two points with the same `x`, `y`, `z` get the same decision from the filter,
whatever their intensities. -/
theorem discards_ignores_intensity {F : Type} (ops : FloatOps F) (x y z i1 i2 : F) :
    discards ops ⟨x, y, z, i1⟩ = discards ops ⟨x, y, z, i2⟩ ∧
      shouldKeep ops ⟨x, y, z, i1⟩ = shouldKeep ops ⟨x, y, z, i2⟩ :=
  ⟨rfl, rfl⟩

theorem encodeSpec_cons {F : Type} (p : PointT F) (ps : List (PointT F)) :
    encodeSpec (p :: ps) = [p.x, p.y, p.z, p.i] ++ encodeSpec ps := by
  simp [encodeSpec]

theorem encodeSpec_length {F : Type} (ps : List (PointT F)) :
    (encodeSpec ps).length = 4 * ps.length := by
  induction ps with
  | nil => rfl
  | cons p ps ih =>
    rw [encodeSpec_cons, List.length_append, ih, List.length_cons]
    simp
    omega

theorem decode4Spec_encodeSpec {F : Type} (ps : List (PointT F)) :
    decode4Spec (encodeSpec ps) = ps := by
  induction ps with
  | nil => rfl
  | cons p ps ih =>
    rw [encodeSpec_cons]
    simp [decode4Spec, ih]

theorem fetch_of_drop_cons {α : Type} (v : List α) (i : Nat) (a : α) (rest : List α)
    (h : v.drop i = a :: rest) : fetch v i = .done a := by
  simpa using fetch_drop v i 0 a (by rw [h]; simp)

theorem drop_succ_of_drop_cons {α : Type} (v : List α) (i : Nat) (a : α) (rest : List α)
    (h : v.drop i = a :: rest) : v.drop (i + 1) = rest := by
  rw [← List.drop_drop, h]
  rfl

/-- Invariant of the loop of `WriteKittiFile`. -/
theorem writeKittiLoop_run {F : Type} (pc : List (PointT F)) (hsize : pc.length < 2 ^ 32) :
    ∀ (n fuel i : Nat) (out : List F),
      (pc.drop i).length = n → n < fuel →
      writeKittiLoop pc fuel i out = .done (out ++ encodeSpec (pc.drop i)) := by
  intro n
  induction n with
  | zero =>
    intro fuel i out hlen hf
    obtain ⟨fuel, rfl⟩ : ∃ f, fuel = f + 1 := ⟨fuel - 1, by omega⟩
    have hnil : pc.drop i = [] := List.length_eq_zero.mp hlen
    have hle : ¬ i < pc.length := by
      have := List.drop_eq_nil_iff.mp hnil
      omega
    simp [writeKittiLoop, hle, hnil, encodeSpec]
  | succ n ih =>
    intro fuel i out hlen hf
    obtain ⟨fuel, rfl⟩ : ∃ f, fuel = f + 1 := ⟨fuel - 1, by omega⟩
    have hlt : i < pc.length := by
      rw [List.length_drop] at hlen
      omega
    match hd : pc.drop i, hlen with
    | p :: rest, hlen =>
      have h0 := fetch_of_drop_cons pc i p rest hd
      have hrest := drop_succ_of_drop_cons pc i p rest hd
      have h1 : u32 (i + 1) = i + 1 := u32_of_lt (by omega)
      have hlen2 : (pc.drop (i + 1)).length = n := by
        rw [hrest]
        simpa using hlen
      rw [writeKittiLoop, if_pos hlt, h0]
      simp only [Run.bind, h1]
      rw [ih fuel (i + 1) _ hlen2 (by omega), hrest, encodeSpec_cons]
      simp

/-- C6: for a vector `ps` whose size is in the range of the `uint32_t` counter, and more
fuel than points, the stream `WriteKittiFile` writes into an empty file is, per point and
in order, `x`, `y`, `z`, `i`; it holds `4 * |ps|` floats; reading it back in groups of four
gives `ps` again; and for no points it is empty. -/
theorem WriteKittiFile_round_trip {F : Type} (fuel : Nat) (ps : List (PointT F))
    (hsize : ps.length < 2 ^ 32) (hfuel : ps.length < fuel) :
    WriteKittiFile fuel (some []) ps = .done (1, some (encodeSpec ps)) ∧
      (encodeSpec ps).length = 4 * ps.length ∧
      decode4Spec (encodeSpec ps) = ps ∧
      WriteKittiFile fuel (some []) ([] : List (PointT F)) = .done (1, some []) := by
  have run := writeKittiLoop_run ps hsize ps.length fuel 0 [] (by simp) hfuel
  have run0 := writeKittiLoop_run ([] : List (PointT F)) (by simp) 0 fuel 0 [] (by simp)
    (by omega)
  simp only [List.drop_zero, List.nil_append] at run run0
  refine ⟨?_, encodeSpec_length ps, decode4Spec_encodeSpec ps, ?_⟩
  · simp [WriteKittiFile, run, Run.bind]
  · simp [WriteKittiFile, run0, Run.bind, encodeSpec]

/-- C8: when the destination opens and holds `c`, and the size of `ps` is in the range of
the `uint32_t` counter with more fuel than points, `WriteKittiFile` returns 1 and leaves
the file holding `c` followed by the encoding of `ps`; run twice on an empty file it leaves
the encoding twice. -/
theorem WriteKittiFile_appends {F : Type} (fuel : Nat) (c : List F) (ps : List (PointT F))
    (hsize : ps.length < 2 ^ 32) (hfuel : ps.length < fuel) :
    WriteKittiFile fuel (some c) ps = .done (1, some (c ++ encodeSpec ps)) ∧
      ((WriteKittiFile fuel (some []) ps).bind fun first => WriteKittiFile fuel first.2 ps) =
        .done (1, some (encodeSpec ps ++ encodeSpec ps)) := by
  have run : ∀ c : List F, WriteKittiFile fuel (some c) ps = .done (1, some (c ++ encodeSpec ps)) := by
    intro c
    have h := writeKittiLoop_run ps hsize ps.length fuel 0 c (by simp) hfuel
    simp only [List.drop_zero] at h
    simp [WriteKittiFile, h, Run.bind]
  refine ⟨run c, ?_⟩
  rw [run []]
  simp only [Run.bind, List.nil_append]
  exact run _

/-- Invariant of the loop of `writePcdFile`. -/
theorem writePcdLoop_run {F : Type} (fmt : F → String) (pc : List (PointT F))
    (hsize : pc.length < 2 ^ 32) :
    ∀ (n fuel i : Nat) (out : List String),
      (pc.drop i).length = n → n < fuel →
      writePcdLoop fmt pc fuel i out =
        .done (out ++ (pc.drop i).map fun p => pcdDataLine fmt p.x p.y p.z p.i) := by
  intro n
  induction n with
  | zero =>
    intro fuel i out hlen hf
    obtain ⟨fuel, rfl⟩ : ∃ f, fuel = f + 1 := ⟨fuel - 1, by omega⟩
    have hnil : pc.drop i = [] := List.length_eq_zero.mp hlen
    have hle : ¬ i < pc.length := by
      have := List.drop_eq_nil_iff.mp hnil
      omega
    simp [writePcdLoop, hle, hnil]
  | succ n ih =>
    intro fuel i out hlen hf
    obtain ⟨fuel, rfl⟩ : ∃ f, fuel = f + 1 := ⟨fuel - 1, by omega⟩
    have hlt : i < pc.length := by
      rw [List.length_drop] at hlen
      omega
    match hd : pc.drop i, hlen with
    | p :: rest, hlen =>
      have h0 := fetch_of_drop_cons pc i p rest hd
      have hrest := drop_succ_of_drop_cons pc i p rest hd
      have h1 : u32 (i + 1) = i + 1 := u32_of_lt (by omega)
      have hlen2 : (pc.drop (i + 1)).length = n := by
        rw [hrest]
        simpa using hlen
      rw [writePcdLoop, if_pos hlt, h0]
      simp only [Run.bind, h1]
      rw [ih fuel (i + 1) _ hlen2 (by omega), hrest]
      simp

/-- C7: when the output opens, and the number `K` of points is in the range of the
`uint32_t` counter with more fuel than points, `writePcdFile` returns 1 and the file
consists of the ten header lines followed by one line per point, `K` in all; line 7 is
`WIDTH K`, line 8 is `HEIGHT 1`, line 9 is `POINTS K` and line 10 is `DATA ASCII`. -/
theorem writePcdFile_header_and_lines {F : Type} (fmt : F → String) (fuel : Nat)
    (ps : List (PointT F)) (hsize : ps.length < 2 ^ 32) (hfuel : ps.length < fuel) :
    ∃ lines : List String, writePcdFile fmt fuel true ps = .done (1, some lines) ∧
      lines.length = 10 + ps.length ∧
      lines.take 10 = pcdHeader ps.length ∧
      lines.drop 10 = ps.map (fun p => pcdDataLine fmt p.x p.y p.z p.i) ∧
      (lines.drop 10).length = ps.length ∧
      lines[6]? = some ("WIDTH " ++ toString ps.length) ∧
      lines[7]? = some "HEIGHT 1" ∧
      lines[8]? = some ("POINTS " ++ toString ps.length) ∧
      lines[9]? = some "DATA ASCII" := by
  have run := writePcdLoop_run fmt ps hsize ps.length fuel 0 (pcdHeader ps.length)
    (by simp) hfuel
  simp only [List.drop_zero] at run
  refine ⟨pcdHeader ps.length ++ ps.map (fun p => pcdDataLine fmt p.x p.y p.z p.i),
    by simp [writePcdFile, run, Run.bind], ?_, ?_, ?_, ?_, ?_, ?_, ?_, ?_⟩
  all_goals simp [pcdHeader]
  omega

theorem filter_isConvert_append_create (log : List Event) (p : Path) :
    (log ++ [Event.create_directory p]).filter Event.isConvert = log.filter Event.isConvert := by
  simp [List.filter_append, Event.isConvert]

theorem resucureEntries_cons_regular {F : Type} (stem : String → String)
    (destExists : Path → Bool) (name : String) (c : Option (List F)) (rest : Entries F)
    (src dest : Path) (log : List Event) :
    resucureEntries stem destExists src dest (.cons name (.regular c) rest) log =
      resucureEntries stem destExists src dest rest
        (resucurePath stem destExists (src ++ [name]) (dest.append (stem name))
          (.regular c) log) := by
  simp [resucureEntries]

theorem resucureEntries_cons_other {F : Type} (stem : String → String)
    (destExists : Path → Bool) (name : String) (rest : Entries F)
    (src dest : Path) (log : List Event) :
    resucureEntries stem destExists src dest (.cons name (.other : Node F) rest) log =
      resucureEntries stem destExists src dest rest log := by
  simp [resucureEntries, resucurePath]

theorem underLidarRoof_cons (src : Path) (name : String) :
    (underLidarRoof src ∘ fun f : List String × String => (name :: f.1, f.2)) =
      underLidarRoof (src ++ [name]) := by
  funext f
  simp [underLidarRoof]

theorem conversionOf_cons (src dest : Path) (name : String) :
    (conversionOf src dest ∘ fun f : List String × String => (name :: f.1, f.2)) =
      conversionOf (src ++ [name]) (dest ++ [name]) := by
  funext f
  simp [conversionOf]

theorem resucureEntries_conversions {F : Type} (stem : String → String)
    (destExists : Path → Bool) :
    ∀ (entries : Entries F) (src dest : Path) (log : List Event),
      entries.wellNamed stem = true →
      (resucureEntries stem destExists src dest entries log).filter Event.isConvert =
        log.filter Event.isConvert ++
          (entries.files.filter (underLidarRoof src)).map (conversionOf src dest)
  | .nil, src, dest, log, _ => by
    simp [resucureEntries, Entries.files]
  | .cons name (.regular c) rest, src, dest, log, h => by
    simp only [Entries.wellNamed, Node.wellNamedAs, Bool.and_eq_true, bne_iff_ne, ne_eq] at h
    have ih := resucureEntries_conversions stem destExists rest src dest
      (resucurePath stem destExists (src ++ [name]) (dest.append (stem name)) (.regular c) log)
      h.2
    rw [resucureEntries_cons_regular, ih]
    simp only [resucurePath, Path.append, if_neg h.1, Path.parent_path, Path.filename,
      List.dropLast_concat, List.getLastD_concat, Entries.files, Node.filesAs,
      List.filter_append, List.map_append, List.filter_cons, List.filter_nil, underLidarRoof,
      List.append_nil]
    split
    · rename_i hl
      have hl2 : (List.getLast? src).getD "" = "lidar_roof" := by simpa using hl
      simp [hl2, conversionOf, List.filter_append, Event.isConvert]
    · rename_i hl
      have hl2 : ¬ (List.getLast? src).getD "" = "lidar_roof" := by simpa using hl
      simp [hl2]
  | .cons name .other rest, src, dest, log, h => by
    simp only [Entries.wellNamed, Node.wellNamedAs, Bool.and_eq_true] at h
    have ih := resucureEntries_conversions stem destExists rest src dest log h.2
    rw [resucureEntries_cons_other, ih]
    simp [Entries.files, Node.filesAs]
  | .cons name (.directory sub) rest, src, dest, log, h => by
    simp only [Entries.wellNamed, Node.wellNamedAs, Bool.and_eq_true, bne_iff_ne, ne_eq] at h
    have ihsub := resucureEntries_conversions stem destExists sub (src ++ [name])
      (dest ++ [name])
    have ih := resucureEntries_conversions stem destExists rest src dest
    rw [resucureEntries]
    simp only [Path.append, if_neg h.1.1]
    rw [ih _ h.2, resucurePath, ihsub _ h.1.2]
    have hlog : ∀ l : List Event,
        l = log ∨ l = log ++ [Event.create_directory (dest ++ [name])] →
        l.filter Event.isConvert = log.filter Event.isConvert := by
      intro l hl
      rcases hl with rfl | rfl
      · rfl
      · exact filter_isConvert_append_create log _
    rw [hlog _ (by split <;> simp)]
    simp only [Entries.files, Node.filesAs, List.filter_append, List.map_append,
      List.append_assoc, List.filter_map, List.map_map, underLidarRoof_cons,
      conversionOf_cons]

/-- C10 (as the code behaves): in the walk of a directory whose names are well formed, the
encoder is called once for each regular file directly inside a directory called
`lidar_roof`, in walk order, and for the file `src/dirs../name` the destination handed to
it is `dest/dirs../name`, the file name with its extension; no other file is handed to the
encoder. -/
theorem resucurePath_destination_keeps_file_name {F : Type} (stem : String → String)
    (destExists : Path → Bool) (entries : Entries F) (src dest : Path) (log : List Event)
    (hnames : entries.wellNamed stem = true) :
    (resucurePath stem destExists src dest (.directory entries) log).filter Event.isConvert =
      log.filter Event.isConvert ++
        (entries.files.filter (underLidarRoof src)).map (conversionOf src dest) := by
  rw [resucurePath]
  exact resucureEntries_conversions stem destExists entries src dest log hnames

/-- C10, at a concrete tree: the scan `src/lidar_roof/000001.bin` is handed to the encoder
with destination `out/lidar_roof/000001.bin`, not `out/lidar_roof/000001`. -/
theorem resucurePath_destination_not_stripped :
    resucurePath exampleStem (fun _ => false) ["src"] ["out"] (.directory exampleEntries) [] =
        [Event.create_directory ["out", "lidar_roof"],
         Event.convert "src/lidar_roof/000001.bin" "out/lidar_roof/000001.bin",
         Event.create_directory ["out", "camera"]] ∧
      Event.convert "src/lidar_roof/000001.bin" "out/lidar_roof/000001" ∉
        resucurePath exampleStem (fun _ => false) ["src"] ["out"]
          (.directory exampleEntries) [] := by
  decide

/-- C10, witness: the walk of the example tree. -/
theorem resucurePath_destination_keeps_file_name_witness :
    exampleEntries.wellNamed exampleStem = true ∧
      (resucurePath exampleStem (fun _ => false) ["src"] ["out"]
          (.directory exampleEntries) []).filter Event.isConvert =
        [Event.convert "src/lidar_roof/000001.bin" "out/lidar_roof/000001.bin"] :=
  ⟨by decide,
    (resucurePath_destination_keeps_file_name exampleStem (fun _ => false) exampleEntries
      ["src"] ["out"] [] (by decide)).trans (by decide)⟩

/-- C1, witness: the buffer of Scenario A, one record of five floats. -/
theorem readKittiFile_decode_stride_witness :
    ∃ st : LoopState ℚ,
      readKittiLoop exampleOps [0, 0, 2, 1 / 2, 99] 2 0 ⟨[], []⟩ = .done st ∧
        st.records.length = 1 := by
  obtain ⟨st, h1, h2, _⟩ := readKittiFile_decode_stride exampleOps 1 2 [0, 0, 2, 1 / 2, 99] []
    (by decide) (by norm_num) (by norm_num)
  exact ⟨st, h1, h2⟩

/-- C2, witness: a buffer of eight floats, one record and three floats more; the loop
evaluates `buffer[8]`. -/
theorem readKittiFile_truncated_tail_out_of_bounds_witness :
    readKittiLoop exampleOps [1, 0, 0, 1 / 2, 99, 0, 0, 2] 2 0 ⟨[], []⟩ =
      .outOfBounds 8 8 :=
  readKittiFile_truncated_tail_out_of_bounds exampleOps 1 3 2 [1, 0, 0, 1 / 2, 99, 0, 0, 2] []
    (by decide) (by norm_num) (by norm_num) (by norm_num) (by norm_num)

/-- C6, witness: two points written to an empty file. -/
theorem WriteKittiFile_round_trip_witness :
    WriteKittiFile 3 (some []) [(⟨1, 2, 3, 4⟩ : PointT ℕ), ⟨5, 6, 7, 8⟩] =
        .done (1, some [1, 2, 3, 4, 5, 6, 7, 8]) ∧
      decode4Spec [1, 2, 3, 4, 5, 6, 7, 8] = [(⟨1, 2, 3, 4⟩ : PointT ℕ), ⟨5, 6, 7, 8⟩] :=
  have h := WriteKittiFile_round_trip 3 [(⟨1, 2, 3, 4⟩ : PointT ℕ), ⟨5, 6, 7, 8⟩]
    (by norm_num) (by decide)
  ⟨h.1, h.2.2.1⟩

/-- C8, witness: one point appended to a file that holds two floats. -/
theorem WriteKittiFile_appends_witness :
    WriteKittiFile 2 (some [9, 9]) [(⟨1, 2, 3, 4⟩ : PointT ℕ)] =
      .done (1, some [9, 9, 1, 2, 3, 4]) :=
  (WriteKittiFile_appends 2 [9, 9] [(⟨1, 2, 3, 4⟩ : PointT ℕ)] (by norm_num) (by decide)).1

/-- C7, witness: one point; the file has eleven lines. -/
theorem writePcdFile_header_and_lines_witness :
    ∃ lines : List String,
      writePcdFile (fun n : ℕ => toString n) 2 true [⟨1, 2, 3, 4⟩] = .done (1, some lines) ∧
        lines.length = 11 ∧ lines[6]? = some "WIDTH 1" ∧ lines[8]? = some "POINTS 1" ∧
        lines.drop 10 = ["1 2 3 4"] := by
  obtain ⟨lines, h1, h2, _, h4, _, h6, _, h8, _⟩ :=
    writePcdFile_header_and_lines (fun n : ℕ => toString n) 2 [⟨1, 2, 3, 4⟩]
      (by norm_num) (by decide)
  exact ⟨lines, h1, h2, h6, h8, h4⟩

end Kitti2Beam
